import Mathlib

/-!
Shallow embedding of the helical diffraction analysis engine of
`streamlit_app.py` (HILL), together with proofs about its documented
properties.  Scalars of the Python code (double-precision floats) are
idealised as exact rationals; external numerical kernels (scipy Bessel
peaks, cosine/sine, exponential) enter as explicit function parameters,
and IEEE special values (infinities and NaN, which several code paths
produce via division by zero) are modelled by the `PyFloat` type.
-/

set_option maxRecDepth 4000

namespace Hill

/-- Python `int(x)` on a rational: truncation toward zero.  (`Rat.floor` is
used rather than `Int.floor` so that concrete instances reduce by `decide`.) -/
def pyTrunc (q : ℚ) : ℤ := if 0 ≤ q then q.floor else -(-q).floor

/-- Python `range(a, b+1)` over integers, as the list `[a, a+1, …, b]`. -/
def intRange (a b : ℤ) : List ℤ :=
  (List.range (b + 1 - a).toNat).map (fun k : ℕ => a + (k : ℤ))

/-- The double-precision value of `np.pi`, an exact dyadic rational. -/
def piQ : ℚ := 884279719003555 / 281474976710656

/-- An idealised Python/numpy float: a finite rational, a signed infinity, or NaN.
Used for the code paths that divide by zero (numpy emits `inf`/`nan` rather than
raising for array operations). -/
inductive PyFloat where
  | fin (q : ℚ)
  | inf (pos : Bool)
  | nan
  deriving DecidableEq, Repr

namespace PyFloat

/-- IEEE division of finite rationals: `0/0 = nan`, `±x/0 = ±inf` for `x ≠ 0`. -/
def divQ (a b : ℚ) : PyFloat :=
  if b = 0 then (if a = 0 then nan else inf (decide (0 < a))) else fin (a / b)

/-- IEEE addition; NaN propagates, opposite infinities give NaN. -/
def add : PyFloat → PyFloat → PyFloat
  | nan, _ => nan
  | _, nan => nan
  | inf p, inf q => if p = q then inf p else nan
  | inf p, fin _ => inf p
  | fin _, inf q => inf q
  | fin a, fin b => fin (a + b)

/-- `np.exp` on an idealised float; the finite case is delegated to the
parameter `expFn` (the real exponential is transcendental).
`exp(-inf) = 0`, `exp(+inf) = +inf`, `exp(nan) = nan`. -/
def expF (expFn : ℚ → ℚ) : PyFloat → PyFloat
  | nan => nan
  | inf true => inf true
  | inf false => fin 0
  | fin q => fin (expFn q)

/-- `x < 0` comparison as numpy evaluates it: NaN compares false. -/
def ltZero : PyFloat → Bool
  | nan => false
  | inf p => !p
  | fin q => decide (q < 0)

end PyFloat

/-! ### normalize (claim C8)

```python
def normalize(data, percentile=(0, 100)):
    p0, p1 = percentile
    vmin, vmax = sorted(np.percentile(data, (p0, p1)))
    data2 = (data-vmin)/(vmax-vmin)
    return data2
```
-/

/-- Insert into a list sorted in nondecreasing order. -/
def insertSorted (x : ℚ) : List ℚ → List ℚ
  | [] => [x]
  | y :: ys => if x ≤ y then x :: y :: ys else y :: insertSorted x ys

/-- Sort a list of rationals in nondecreasing order (insertion sort, the
sorting step inside `np.percentile`). -/
def sortQ : List ℚ → List ℚ
  | [] => []
  | x :: xs => insertSorted x (sortQ xs)

/-- `np.percentile(data, q)` with the default linear interpolation:
interpolate the sorted flattened data at fractional rank `q·(n-1)/100`. -/
def npPercentile (data : List (List ℚ)) (q : ℚ) : ℚ :=
  let s := sortQ data.flatten
  let n := s.length
  let rank : ℚ := q * ((n : ℚ) - 1) / 100
  let i : ℕ := rank.floor.toNat
  let frac : ℚ := rank - (i : ℚ)
  let a := s.getD i 0
  let b := s.getD (i + 1) a
  a + frac * (b - a)

/-- The smaller of the two percentile values (`vmin` in `normalize`, after the
`sorted(...)` of the source). -/
def normVmin (data : List (List ℚ)) (p0 p1 : ℚ) : ℚ :=
  if npPercentile data p0 ≤ npPercentile data p1 then npPercentile data p0
  else npPercentile data p1

/-- The larger of the two percentile values (`vmax` in `normalize`). -/
def normVmax (data : List (List ℚ)) (p0 p1 : ℚ) : ℚ :=
  if npPercentile data p0 ≤ npPercentile data p1 then npPercentile data p1
  else npPercentile data p0

/-- Embedding of `normalize`: elementwise linear rescale sending the sorted
pair of the two requested percentile values to 0 and 1. -/
def normalize (data : List (List ℚ)) (p0 p1 : ℚ) : List (List ℚ) :=
  data.map (fun row => row.map (fun v =>
    (v - normVmin data p0 p1) / (normVmax data p0 p1 - normVmin data p0 p1)))

/-! ### tapering (claim C3)

```python
def tapering(data, fraction_start=[0, 0], fraction_slope=0.1):
    fy, fx = fraction_start
    if not (0<fy<1 and 0<fx<1): return data
    ny, nx = data.shape
    ...
    if 0<fy<1:
        Y = np.abs(Y / (ny//2)); inner = Y<fy; outer = Y>fy+fraction_slope
        Y = (Y-fy)/fraction_slope; Y = (1. + np.cos(Y*np.pi))/2.0
        Y[inner]=1; Y[outer]=0; filter *= Y
    if 0<fx<1:  # same along x
    data2 = data * filter
```
`np.cos(t*np.pi)` enters as the parameter `cospi` (cosine of π times a
rational is transcendental); the claims about this function are decided by
the `inner`/`outer` overrides, not by the cosine values.
-/

/-- One-axis taper profile at normalised absolute coordinate `t`: 1 inside
`f`, 0 beyond `f + slope`, half-cosine in between (the `inner`/`outer`
overrides of the source). -/
def taperMask (cospi : ℚ → ℚ) (f slope t : ℚ) : ℚ :=
  if t < f then 1
  else if f + slope < t then 0
  else (1 + cospi ((t - f) / slope)) / 2

/-- The separable taper filter at pixel `(iy, ix)`: each axis contributes its
mask when its fraction lies in (0,1) and the constant 1 otherwise (the two
inner `if 0<f<1` guards of the source). -/
def taperFilter (cospi : ℚ → ℚ) (fy fx slope : ℚ) (ny nx iy ix : ℕ) : ℚ :=
  (if 0 < fy ∧ fy < 1 then
     taperMask cospi fy slope (|(iy : ℚ) - ((ny / 2 : ℕ) : ℚ)| / ((ny / 2 : ℕ) : ℚ))
   else 1) *
  (if 0 < fx ∧ fx < 1 then
     taperMask cospi fx slope (|(ix : ℚ) - ((nx / 2 : ℕ) : ℚ)| / ((nx / 2 : ℕ) : ℚ))
   else 1)

/-- Multiply every pixel by the separable taper filter. -/
def taperApply (cospi : ℚ → ℚ) (data : List (List ℚ)) (fy fx slope : ℚ) : List (List ℚ) :=
  let ny := data.length
  let nx := (data.headD []).length
  (List.range ny).map (fun iy : ℕ =>
    (List.range nx).map (fun ix : ℕ =>
      (data.getD iy []).getD ix 0 * taperFilter cospi fy fx slope ny nx iy ix))

/-- Embedding of `tapering`: the guard `if not (0<fy<1 and 0<fx<1): return data`
makes the function the identity unless BOTH fractions lie in (0,1). -/
def tapering (cospi : ℚ → ℚ) (data : List (List ℚ)) (fy fx slope : ℚ) : List (List ℚ) :=
  if ¬ (0 < fy ∧ fy < 1 ∧ 0 < fx ∧ fx < 1) then data
  else taperApply cospi data fy fx slope

/-- Modelled from the spec: `taper` "disabled (identity) for a given axis when
its fraction is outside (0,1)" — the per-axis-independent variant the spec
describes, i.e. the body of `tapering` without the all-or-nothing early
return.  Kept for comparison against the source's `tapering`. -/
def taperingPerAxisSpec (cospi : ℚ → ℚ) (data : List (List ℚ)) (fy fx slope : ℚ) :
    List (List ℚ) :=
  taperApply cospi data fy fx slope

/-! ### compute_power_spectra (claim C2)

```python
def compute_power_spectra(data, apix, cutoff_res=None, output_size=None, log=True,
                          low_pass_fraction=0, high_pass_fraction=0):
    fft = fft_rescale(...); fft = np.fft.fftshift(fft)
    if log: pwr = np.log(np.abs(fft))
    if 0<low_pass_fraction<1 or 0<high_pass_fraction<1:
        pwr = low_high_pass_filter(pwr, ...)
    pwr = normalize(pwr, percentile=(0, 100))
    phase = np.angle(fft, deg=False)
    return pwr, phase
```
The numerical kernels (the external `finufft` NUFFT inside `fft_rescale`,
elementwise `log|·|`, the band filter, `normalize`, `np.angle`) act pointwise
on grids and enter as parameters over an abstract grid type `G`; the claim is
decided by the binding structure of the local variable `pwr`, modelled as an
`Option G` that is `none` while `pwr` is unbound (using an unbound Python
local raises `UnboundLocalError`, modelled as `Except.error`). -/
def compute_power_spectra (G : Type) (fft : G) (logAbs bandFilter norm angleOf : G → G)
    (log : Bool) (low_pass_fraction high_pass_fraction : ℚ) : Except String (G × G) :=
  let pwr0 : Option G := if log then some (logAbs fft) else none
  let pwr1 : Option G :=
    if (0 < low_pass_fraction ∧ low_pass_fraction < 1) ∨
       (0 < high_pass_fraction ∧ high_pass_fraction < 1) then
      match pwr0 with
      | some p => some (bandFilter p)
      | none => none
    else pwr0
  match pwr1 with
  | some p => Except.ok (norm p, angleOf fft)
  | none => Except.error "UnboundLocalError: local variable pwr referenced before assignment"

/-! ### bessel_n_image (claim C6)

```python
def bessel_n_image(ny, nx, nyquist_res_x, nyquist_res_y, radius, tilt):
    def build_bessel_order_table(xmax):
        table = [0]; n = 1
        while 1:
            peak_x = jnp_zeros(n, 1)[0]
            if peak_x<xmax: table.append(peak_x)
            else: break
            n += 1
        return np.asarray(table)
    ...
    else:  # tilt == 0 — the only case the claims exercise
        ds = 1./(nyquist_res_x*nx//2)
        xs = 2*np.pi * np.abs(np.arange(nx)-nx//2)*ds * radius
        table = build_bessel_order_table(xs.max())
        indices = np.abs(table - xs).argmin(axis=-1)
        return np.tile(indices, (ny, 1))
```
`scipy.special.jnp_zeros(n, 1)[0]` (first peak of the Bessel function J_n)
enters as the parameter `jz`; the unbounded `while` loop is given explicit
fuel (the true peak locations grow without bound, so enough fuel reproduces
the source loop).  The `if tilt:` branch is skipped at tilt = 0 and is not
modelled. -/
def buildTableAux (jz : ℕ → ℚ) (xmax : ℚ) : ℕ → ℕ → List ℚ
  | 0, _ => []
  | fuel + 1, n => if jz n < xmax then jz n :: buildTableAux jz xmax fuel (n + 1) else []

/-- The Bessel first-peak table `[0, jz 1, jz 2, …]`, grown while below `xmax`. -/
def build_bessel_order_table (jz : ℕ → ℚ) (fuel : ℕ) (xmax : ℚ) : List ℚ :=
  0 :: buildTableAux jz xmax fuel 1

/-- First index of the table entry nearest to `x` (numpy `argmin` keeps the
first occurrence of the minimum). -/
def argminAux (x : ℚ) : ℕ × ℚ → ℕ → List ℚ → ℕ
  | best, _, [] => best.1
  | best, i, u :: rest =>
    if |u - x| < best.2 then argminAux x (i, |u - x|) (i + 1) rest
    else argminAux x best (i + 1) rest

/-- `np.abs(table - x).argmin()`. -/
def argminAbsDist (x : ℚ) : List ℚ → ℕ
  | [] => 0
  | t :: rest => argminAux x (0, |t - x|) 1 rest

/-- Embedding of `bessel_n_image` for tilt = 0.  Note `nyquist_res_x*nx//2`
is a Python float floor-division: `⌊res·nx/2⌋`.  The fold computing `xs.max()`
starts at 0, which equals numpy's max here since every `xs` entry is a
product of absolute values (`nx ≥ 1` always holds at the call sites). -/
def bessel_n_image (jz : ℕ → ℚ) (fuel : ℕ) (ny nx : ℕ)
    (nyquist_res_x _nyquist_res_y radius : ℚ) : List (List ℕ) :=
  let ds := 1 / (((nyquist_res_x * nx / 2).floor : ℚ))
  let xs := (List.range nx).map (fun j : ℕ =>
    2 * piQ * |(j : ℚ) - ((nx / 2 : ℕ) : ℚ)| * ds * radius)
  let xmax := xs.foldl (fun a b => if a ≤ b then b else a) 0
  let table := build_bessel_order_table jz fuel xmax
  let indices := xs.map (fun x => argminAbsDist x table)
  List.replicate ny indices

/-- Modelled from the spec: the first-peak locations of the Bessel functions
J_n (`scipy.special.jnp_zeros(n, 1)[0]`, an external library call), as
rational approximations to four decimals — 1.8412, 3.0542, 4.2012, 5.3176,
6.4156, 7.5013 for n = 1…6, with a crude increasing extension beyond (the
concrete instances below never reach it).  Used to instantiate the `jz`
parameter on concrete inputs. -/
def jnpPeak1Model (n : ℕ) : ℚ :=
  if n = 1 then 18412 / 10000
  else if n = 2 then 30542 / 10000
  else if n = 3 then 42012 / 10000
  else if n = 4 then 53176 / 10000
  else if n = 5 then 64156 / 10000
  else if n = 6 then 75013 / 10000
  else (n : ℚ) + 2

/-! ### compute_layer_line_positions (claims C1, C7)

```python
def compute_layer_line_positions(twist, rise, csym, radius, tilt, cutoff_res, m=[]):
    def pitch(twist, rise): return np.abs(rise * 360./twist)
    def peak_sx(bessel_order, radius):
        ... sx[bi] = jnp_zeros(bessel_order[bi], 1)[0]/(2*np.pi*radius)  (0 for order 0)
    if not m:
        m_max = int(np.floor(np.abs(rise/cutoff_res)))+2
        m = list(range(-m_max, m_max+1)); m.sort(key=lambda x: (abs(x), x))
    smax = 1./cutoff_res
    for mi in range(len(m)):
        sy0 = m[mi] / rise
        p = pitch(twist, rise); ds_p = 1/p
        ll_i_top = int((smax - sy0)/ds_p)
        ll_i_bottom = -int(np.abs(-smax - sy0)/ds_p)
        ll_i = [i for i in range(ll_i_bottom, ll_i_top+1) if not i%csym]
        sy = sy0 + ll_i * ds_p
        sx = peak_sx(ll_i, radius)
        px = list(sx)+list(-sx); py = list(sy)+list(sy)
        m_groups[m[mi]] = {"LL": (px, py)}
```
`jnp_zeros(j, 1)[0]` enters as the parameter `pk`; every call site uses the
default `m=[]` path, and all the claims fix tilt = 0, where the `if tilt:`
rescaling branch is skipped, so it is not modelled. -/
def pitch (twist rise : ℚ) : ℚ := |rise * 360 / twist|

/-- `peak_sx` for a single Bessel order `j`: 0 for order 0, otherwise the
first-peak location divided by `2π·radius`. -/
def peak_sx1 (pk : ℤ → ℚ) (radius : ℚ) (j : ℤ) : ℚ :=
  if j = 0 then 0 else pk j / (2 * piQ * radius)

/-- The default meridional-order list: `range(-m_max, m_max+1)` sorted by
`(abs(x), x)`, whose sorted form is the closed list `0, -1, 1, -2, 2, …`. -/
def llOrders (rise cutoff_res : ℚ) : List ℤ :=
  let m_max := (|rise / cutoff_res|).floor + 2
  0 :: (List.range m_max.toNat).flatMap (fun k => [-(k + 1 : ℤ), (k + 1 : ℤ)])

/-- The kept Bessel contribution indices of one meridional order `m`:
`[i for i in range(ll_i_bottom, ll_i_top+1) if not i%csym]`. -/
def llIdx (twist rise : ℚ) (csym : ℕ) (cutoff_res : ℚ) (m : ℤ) : List ℤ :=
  let smax := 1 / cutoff_res
  let sy0 := (m : ℚ) / rise
  let ds_p := 1 / pitch twist rise
  let top := pyTrunc ((smax - sy0) / ds_p)
  let bottom := -pyTrunc (|(-smax) - sy0| / ds_p)
  (intRange bottom top).filter (fun i => i % (csym : ℤ) = 0)

/-- The layer-line group of one meridional order `m`:
mirrored horizontal peak coordinates `px` and vertical coordinates `py`. -/
def llGroup (pk : ℤ → ℚ) (twist rise : ℚ) (csym : ℕ) (radius cutoff_res : ℚ) (m : ℤ) :
    List ℚ × List ℚ :=
  let sy0 := (m : ℚ) / rise
  let ds_p := 1 / pitch twist rise
  let ll_i := llIdx twist rise csym cutoff_res m
  let sy := ll_i.map (fun i : ℤ => sy0 + (i : ℚ) * ds_p)
  let sx := ll_i.map (fun i : ℤ => peak_sx1 pk radius i)
  (sx ++ sx.map (fun v => -v), sy ++ sy)

/-- Embedding of `compute_layer_line_positions` (default `m=[]`, tilt = 0):
the association list from each meridional order to its `(px, py)` group. -/
def compute_layer_line_positions (pk : ℤ → ℚ) (twist rise : ℚ) (csym : ℕ)
    (radius cutoff_res : ℚ) : List (ℤ × (List ℚ × List ℚ)) :=
  (llOrders rise cutoff_res).map
    (fun m => (m, llGroup pk twist rise csym radius cutoff_res m))

/-! ### simulate_helix (claims C4, C10)

```python
def helical_unit_positions(twist, rise, csym, radius, height, tilt=0, az0=0):
    imax = int(height/rise); i0 = -imax; i1 = imax
    centers = np.zeros(((2*imax+1)*csym, 3))
    for i in range(i0, i1+1):
        z = rise*i
        for si in range(csym):
            angle = np.deg2rad(twist*i + si*360./csym + az0 + 90)
            x = np.cos(angle)*radius; y = np.sin(angle)*radius
            centers[i*csym+si, 0] = x; ...[, 1] = y; ...[, 2] = z
    centers = centers[:, [2, 0]]   # project along y
def simulate_projection(centers, sigma, ny, nx, apix):
    sigma2 = sigma*sigma; d = np.zeros((ny, nx))
    Y, X = meshgrid(arange(ny)-ny//2, arange(nx)-nx//2); X *= apix; Y *= apix
    for yc, xc in centers: d += np.exp(-((X-xc)**2+(Y-yc)**2)/sigma2)
```
Angles stay in degrees; `np.cos(np.deg2rad θ)` and `np.sin(np.deg2rad θ)`
enter as the parameters `cosdeg`/`sindeg`, and `np.exp` on finite arguments
as `expFn`.  A negative row index `i*csym+si` wraps around once (Python
negative indexing).  All claims fix tilt = 0, where the `if tilt:` 3-D
rotation branch is skipped, so it is not modelled. -/
def huWriteIndex (N idx : ℤ) : ℤ := if idx < 0 then idx + N else idx

/-- The `(i, si)` loop pairs of `helical_unit_positions`, in loop order. -/
def huPairs (imax : ℤ) (csym : ℕ) : List (ℤ × ℕ) :=
  (intRange (-imax) imax).flatMap (fun i => (List.range csym).map (fun si => (i, si)))

/-- The subunit angle in degrees: `twist*i + si*360./csym + az0 + 90`. -/
def huAngle (twist : ℚ) (csym : ℕ) (az0 : ℚ) (i : ℤ) (si : ℕ) : ℚ :=
  twist * (i : ℚ) + (si : ℚ) * 360 / (csym : ℕ) + az0 + 90

/-- The `centers` array after the fill loop, as a map from row index to the
`(x, y, z)` coordinates; rows start at the zero initialisation of `np.zeros`. -/
def helical_unit_centers (cosdeg sindeg : ℚ → ℚ) (twist rise : ℚ) (csym : ℕ)
    (radius height az0 : ℚ) : ℤ → ℚ × ℚ × ℚ :=
  let imax := pyTrunc (height / rise)
  let N : ℤ := (2 * imax + 1) * (csym : ℤ)
  (huPairs imax csym).foldl (fun arr p =>
    let angle := huAngle twist csym az0 p.1 p.2
    Function.update arr (huWriteIndex N (p.1 * (csym : ℤ) + (p.2 : ℤ)))
      (cosdeg angle * radius, sindeg angle * radius, rise * (p.1 : ℚ)))
    (fun _ => (0, 0, 0))

/-- The row indices the fill loop writes, in loop order (negative raw indices
after Python wrap-around). -/
def huWrites (imax : ℤ) (csym : ℕ) : List ℤ :=
  (huPairs imax csym).map (fun p =>
    huWriteIndex ((2 * imax + 1) * (csym : ℤ)) (p.1 * (csym : ℤ) + (p.2 : ℤ)))

/-- `centers[:, [2, 0]]`: the projected `(z, x)` rows, in row order. -/
def helical_unit_positions (cosdeg sindeg : ℚ → ℚ) (twist rise : ℚ) (csym : ℕ)
    (radius height az0 : ℚ) : List (ℚ × ℚ) :=
  let imax := pyTrunc (height / rise)
  let N : ℤ := (2 * imax + 1) * (csym : ℤ)
  (intRange 0 (N - 1)).map (fun r : ℤ =>
    let c := helical_unit_centers cosdeg sindeg twist rise csym radius height az0 r
    (c.2.2, c.1))

/-- One Gaussian-ball contribution `np.exp(-(x²+y²)/σ²)` with IEEE semantics:
for σ² = 0 this is `exp(-r²/0)`, i.e. 0 via `exp(-inf)` when `r² ≠ 0` and NaN
via `exp(0/0)` when the pixel coincides exactly with the center. -/
def gaussContribution (expFn : ℚ → ℚ) (sigma2 dx dy : ℚ) : PyFloat :=
  PyFloat.expF expFn (PyFloat.divQ (-(dx * dx + dy * dy)) sigma2)

/-- Embedding of `simulate_projection`: accumulate the Gaussian of each
center over the pixel grid. -/
def simulate_projection (expFn : ℚ → ℚ) (centers : List (ℚ × ℚ)) (sigma : ℚ)
    (ny nx : ℕ) (apix : ℚ) : List (List PyFloat) :=
  let sigma2 := sigma * sigma
  (List.range ny).map (fun iy : ℕ =>
    (List.range nx).map (fun ix : ℕ =>
      let Yv := ((iy : ℚ) - ((ny / 2 : ℕ) : ℚ)) * apix
      let Xv := ((ix : ℚ) - ((nx / 2 : ℕ) : ℚ)) * apix
      centers.foldl (fun acc c =>
        PyFloat.add acc (gaussContribution expFn sigma2 (Xv - c.2) (Yv - c.1)))
        (PyFloat.fin 0)))

/-- Embedding of `simulate_helix` (tilt = 0, explicit `az0` as at the call
site): render the projected helical lattice with Gaussian balls. -/
def simulate_helix (cosdeg sindeg expFn : ℚ → ℚ) (twist rise : ℚ) (csym : ℕ)
    (helical_radius ball_radius : ℚ) (ny nx : ℕ) (apix az0 : ℚ) : List (List PyFloat) :=
  let centers := helical_unit_positions cosdeg sindeg twist rise csym helical_radius
    ((ny : ℚ) * apix) az0
  simulate_projection expFn centers ball_radius ny nx apix

/-! ### distinct_sampling (claim C9)

```python
def distinct_sampling(n):
    assert(n>0)
    if n==1: return [0]
    all = list(range(1, n)); ret = [0]
    while all:
        ref = ret[-2:][0]
        err_max = 0; val_max = None
        for v in all:
            err = abs(v-ref)
            if err>err_max: err_max = err; val_max = v
        ret.append(val_max); all.remove(val_max)
    return ret
```
-/

/-- `ret[-2:][0]`: the second-to-last element when `ret` has at least two
elements, else the single element (`ret` is never empty here). -/
def refOf (ret : List ℕ) : ℕ := ret.getD (ret.length - 2) 0

/-- The inner `for v in all` scan: keep the first candidate strictly
exceeding the running maximal distance. -/
def pickMaxAux (ref : ℕ) : ℕ → Option ℕ → List ℕ → ℕ × Option ℕ
  | errMax, valMax, [] => (errMax, valMax)
  | errMax, valMax, v :: rest =>
    if errMax < Nat.dist v ref then pickMaxAux ref (Nat.dist v ref) (some v) rest
    else pickMaxAux ref errMax valMax rest

/-- The scan started from `err_max = 0`, `val_max = None`. -/
def pickMax (ref : ℕ) (cands : List ℕ) : ℕ × Option ℕ :=
  pickMaxAux ref 0 none cands

/-- The `while all:` loop with fuel `|all|` (each iteration removes one
element).  `none` would model the Python crash `all.remove(None)` when no
candidate has positive distance; the proofs show it never occurs here. -/
def dsLoop : ℕ → List ℕ → List ℕ → Option (List ℕ)
  | _, [], ret => some ret
  | 0, _ :: _, _ => none
  | fuel + 1, a :: as, ret =>
    match (pickMax (refOf ret) (a :: as)).2 with
    | none => none
    | some v => dsLoop fuel ((a :: as).erase v) (ret ++ [v])

/-- Embedding of `distinct_sampling`; `none` models the `assert(n>0)` failure. -/
def distinct_sampling (n : ℕ) : Option (List ℕ) :=
  if n = 0 then none
  else if n = 1 then some [0]
  else dsLoop (n - 1) (List.range' 1 (n - 1)) [0]

/-- Modelled from the spec: `v` is the first candidate in `cands` attaining
the maximal absolute distance from `ref` ("chosen greedily to maximize its
distance …, ties resolved in favor of the first candidate found"). -/
def isFirstMax (ref : ℕ) (cands : List ℕ) (v : ℕ) : Prop :=
  ∃ pre post, cands = pre ++ v :: post ∧
    (∀ w ∈ cands, Nat.dist w ref ≤ Nat.dist v ref) ∧
    (∀ w ∈ pre, Nat.dist w ref < Nat.dist v ref)

/-- Modelled from the spec: the greedy run relation — starting from the
already-chosen list `ret` and remaining candidates `cands`, repeatedly
append a first-found maximal-distance candidate (distance measured from the
second-most-recently chosen element) until none remain, producing `out`. -/
inductive GreedyRun : List ℕ → List ℕ → List ℕ → Prop where
  | nil (ret : List ℕ) : GreedyRun ret [] ret
  | cons (ret cands : List ℕ) (v : ℕ) (out : List ℕ) :
      isFirstMax (refOf ret) cands v →
      GreedyRun (ret ++ [v]) (cands.erase v) out →
      GreedyRun ret cands out

/-! ### auto_vertical_center, deterministic prefix (claim C5)

```python
def auto_vertical_center(image):
    image_work = image * 1.0
    background = np.mean(image_work[[0,1,2,-3,-2,-1],[0,1,2,-3,-2,-1]])
    thresh = (image_work.max()-background) * 0.2 + background
    image_work = (image_work-thresh)/(image_work.max()-thresh)
    image_work[image_work<0] = 0
    ... # scipy minimize_scalar / fmin searches on image_work follow
```
The function has no zero-dynamic-range guard; the claims are decided by this
deterministic prefix (everything before the optimizer searches), where the
division is a numpy array division that emits `inf`/`nan` rather than
raising.  The paired fancy index selects the six diagonal pixels
`(0,0),(1,1),(2,2),(-3,-3),(-2,-2),(-1,-1)`. -/
def avcPick (image : List (List ℚ)) (iy ix : ℤ) : ℚ :=
  let ny := image.length
  let nx := (image.headD []).length
  (image.getD (if iy < 0 then (iy + ny).toNat else iy.toNat) []).getD
    (if ix < 0 then (ix + nx).toNat else ix.toNat) 0

/-- `np.mean(image[[0,1,2,-3,-2,-1],[0,1,2,-3,-2,-1]])`. -/
def avcBackground (image : List (List ℚ)) : ℚ :=
  (avcPick image 0 0 + avcPick image 1 1 + avcPick image 2 2 +
   avcPick image (-3) (-3) + avcPick image (-2) (-2) + avcPick image (-1) (-1)) / 6

/-- `image.max()` (the input grids are nonempty at every call site). -/
def imgMax (image : List (List ℚ)) : ℚ :=
  image.flatten.foldl (fun a b => if a ≤ b then b else a) ((image.headD []).headD 0)

/-- The thresholded, rescaled working image of `auto_vertical_center`, with
negative entries clamped to 0 (`image_work[image_work<0] = 0`; NaN compares
false and is kept). -/
def auto_vertical_center_work (image : List (List ℚ)) : List (List PyFloat) :=
  let background := avcBackground image
  let mx := imgMax image
  let thresh := (mx - background) * (1 / 5) + background
  image.map (fun row => row.map (fun v =>
    let w := PyFloat.divQ (v - thresh) (mx - thresh)
    if w.ltZero then PyFloat.fin 0 else w))

end Hill

namespace Hill

/-- C8: when the two percentile values differ, every pixel of `normalize`'s
output is the affine image of the input pixel under a map that sends the low
percentile value exactly to 0 and the high percentile value exactly to 1 and
is monotone in the input value. -/
theorem normalize_percentile_exact (data : List (List ℚ)) (p0 p1 : ℚ)
    (h : normVmin data p0 p1 ≠ normVmax data p0 p1) :
    (normalize data p0 p1 = data.map (fun row => row.map (fun v =>
        (v - normVmin data p0 p1) / (normVmax data p0 p1 - normVmin data p0 p1)))) ∧
    (normVmin data p0 p1 - normVmin data p0 p1) /
        (normVmax data p0 p1 - normVmin data p0 p1) = 0 ∧
    (normVmax data p0 p1 - normVmin data p0 p1) /
        (normVmax data p0 p1 - normVmin data p0 p1) = 1 ∧
    ∀ a b : ℚ, a ≤ b →
      (a - normVmin data p0 p1) / (normVmax data p0 p1 - normVmin data p0 p1) ≤
      (b - normVmin data p0 p1) / (normVmax data p0 p1 - normVmin data p0 p1) := by
  have hle : normVmin data p0 p1 ≤ normVmax data p0 p1 := by
    unfold normVmin normVmax
    split
    · assumption
    · exact le_of_not_le (by assumption)
  have hd : 0 < normVmax data p0 p1 - normVmin data p0 p1 := by
    rcases lt_of_le_of_ne hle h with hlt
    linarith
  refine ⟨rfl, by rw [sub_self, zero_div], div_self (ne_of_gt hd), ?_⟩
  intro a b hab
  have h1 : a - normVmin data p0 p1 ≤ b - normVmin data p0 p1 := by linarith
  rw [div_eq_mul_inv, div_eq_mul_inv]
  exact mul_le_mul_of_nonneg_right h1 (inv_nonneg.mpr hd.le)

/-- Witness for C8 at the image `[[0, 2], [1, 1]]` with percentiles (0, 100):
the percentile values are 0 and 2, which differ. -/
theorem normalize_percentile_exact_witness :
    normVmin [[0, 2], [1, 1]] 0 100 ≠ normVmax [[0, 2], [1, 1]] 0 100 ∧
    ((normalize [[0, 2], [1, 1]] 0 100 = [[0, 2], [1, 1]].map (fun row => row.map (fun v =>
        (v - normVmin [[0, 2], [1, 1]] 0 100) /
          (normVmax [[0, 2], [1, 1]] 0 100 - normVmin [[0, 2], [1, 1]] 0 100)))) ∧
    (normVmin [[0, 2], [1, 1]] 0 100 - normVmin [[0, 2], [1, 1]] 0 100) /
        (normVmax [[0, 2], [1, 1]] 0 100 - normVmin [[0, 2], [1, 1]] 0 100) = 0 ∧
    (normVmax [[0, 2], [1, 1]] 0 100 - normVmin [[0, 2], [1, 1]] 0 100) /
        (normVmax [[0, 2], [1, 1]] 0 100 - normVmin [[0, 2], [1, 1]] 0 100) = 1 ∧
    ∀ a b : ℚ, a ≤ b →
      (a - normVmin [[0, 2], [1, 1]] 0 100) /
          (normVmax [[0, 2], [1, 1]] 0 100 - normVmin [[0, 2], [1, 1]] 0 100) ≤
      (b - normVmin [[0, 2], [1, 1]] 0 100) /
          (normVmax [[0, 2], [1, 1]] 0 100 - normVmin [[0, 2], [1, 1]] 0 100)) :=
  ⟨by with_unfolding_all decide,
    normalize_percentile_exact [[0, 2], [1, 1]] 0 100 (by with_unfolding_all decide)⟩

/-- C2: with the log-amplitude flag disabled, `compute_power_spectra` never
succeeds — the local `pwr` is only assigned under `if log:`, so every
`log=False` call reads an unbound local and raises, for all inputs and all
band-filter fractions (contradicting the claim that the failure branch is
unreachable). -/
theorem compute_power_spectra_log_false_errors (G : Type) (fft : G)
    (logAbs bandFilter norm angleOf : G → G) (low_pass_fraction high_pass_fraction : ℚ) :
    compute_power_spectra G fft logAbs bandFilter norm angleOf false
      low_pass_fraction high_pass_fraction =
    Except.error "UnboundLocalError: local variable pwr referenced before assignment" := by
  unfold compute_power_spectra
  split
  · rename_i h
    exact absurd h (by simp)
  · split <;> rfl

/-- C3: `tapering` is NOT per-axis independent.  On the all-ones 4×4 image
with `fraction_start = [1/2, 0]` and `fraction_slope = 1/10`, the source
returns the image unchanged (the early return fires because the x fraction is
outside (0,1)), while the per-axis behaviour the spec describes would still
apply the y-axis mask and change the image.  (The call site
`tapering(proj, fraction_start=[0.7, 0], fraction_slope=0.1)` is thus a
no-op.)  The cosine parameter is irrelevant: the differing pixels lie in the
`outer` override region. -/
theorem tapering_requires_both_fractions :
    tapering (fun _ => 0) [[1, 1, 1, 1], [1, 1, 1, 1], [1, 1, 1, 1], [1, 1, 1, 1]]
        (1 / 2) 0 (1 / 10) =
      [[1, 1, 1, 1], [1, 1, 1, 1], [1, 1, 1, 1], [1, 1, 1, 1]] ∧
    taperingPerAxisSpec (fun _ => 0)
        [[1, 1, 1, 1], [1, 1, 1, 1], [1, 1, 1, 1], [1, 1, 1, 1]] (1 / 2) 0 (1 / 10) ≠
      [[1, 1, 1, 1], [1, 1, 1, 1], [1, 1, 1, 1], [1, 1, 1, 1]] := by
  with_unfolding_all decide

/-- C5 counterexample: on a constant (zero-dynamic-range) image,
`auto_vertical_center` does not avoid non-finite values — its thresholded
working image is entirely NaN (every entry is `(c-c)/(c-c) = 0/0`), so the
optimizer searches that produce its return value all run on NaN scores; the
claimed zero-transform early exit does not exist in the code. -/
theorem auto_vertical_center_const_not_finite :
    ¬ (∀ row ∈ auto_vertical_center_work
        [[5, 5, 5, 5], [5, 5, 5, 5], [5, 5, 5, 5], [5, 5, 5, 5]],
        ∀ v ∈ row, v ≠ PyFloat.nan) := by
  with_unfolding_all decide

/-- Helper: folding the comparison-maximum over a list of copies of `c`
starting at `c` stays `c`. -/
theorem foldl_max_const (c : ℚ) : ∀ l : List ℚ, (∀ x ∈ l, x = c) →
    l.foldl (fun a b => if a ≤ b then b else a) c = c := by
  intro l
  induction l with
  | nil => intro _; rfl
  | cons x xs ih =>
    intro hx
    have hxc : x = c := hx x (List.mem_cons_self _ _)
    have : ∀ y ∈ xs, y = c := fun y hy => hx y (List.mem_cons_of_mem _ hy)
    simp only [List.foldl_cons, hxc, if_pos le_rfl]
    exact ih this

/-- Helper: head of a nonempty replicate list. -/
theorem headD_replicate {α : Type _} (d : α) (n : ℕ) (a : α) (h : 1 ≤ n) :
    (List.replicate n a).headD d = a := by
  cases n with
  | zero => omega
  | succ n => rfl

/-- Helper: in-range `getD` on a replicate list. -/
theorem getD_replicate {α : Type _} (d : α) (n i : ℕ) (a : α) (h : i < n) :
    (List.replicate n a).getD i d = a := by
  rw [List.getD_eq_getElem?_getD, List.getElem?_replicate, if_pos h]
  rfl

/-- C5 (amended): on any constant image of size at least 3×3, the working
image that `auto_vertical_center` hands to its optimizer stages is entirely
NaN: the threshold equals both the background and the maximum, so every
entry is `0/0`, and the clamp keeps NaN (NaN < 0 is false). -/
theorem auto_vertical_center_zero_range (ny nx : ℕ) (c : ℚ) (hy : 3 ≤ ny) (hx : 3 ≤ nx) :
    auto_vertical_center_work (List.replicate ny (List.replicate nx c)) =
      List.replicate ny (List.replicate nx PyFloat.nan) := by
  have hrow : (List.replicate ny (List.replicate nx c)).headD [] = List.replicate nx c :=
    headD_replicate _ _ _ (by omega)
  have hpick : ∀ iy ix : ℤ, -3 ≤ iy → iy < 3 → -3 ≤ ix → ix < 3 →
      avcPick (List.replicate ny (List.replicate nx c)) iy ix = c := by
    intro iy ix hiy1 hiy2 hix1 hix2
    unfold avcPick
    simp only [List.length_replicate, hrow]
    have hyy : (if iy < 0 then (iy + (ny : ℤ)).toNat else iy.toNat) < ny := by
      split <;> omega
    have hxx : (if ix < 0 then (ix + (nx : ℤ)).toNat else ix.toNat) < nx := by
      split <;> omega
    rw [getD_replicate _ _ _ _ hyy, getD_replicate _ _ _ _ hxx]
  have hbg : avcBackground (List.replicate ny (List.replicate nx c)) = c := by
    unfold avcBackground
    rw [hpick 0 0 (by omega) (by omega) (by omega) (by omega),
      hpick 1 1 (by omega) (by omega) (by omega) (by omega),
      hpick 2 2 (by omega) (by omega) (by omega) (by omega),
      hpick (-3) (-3) (by omega) (by omega) (by omega) (by omega),
      hpick (-2) (-2) (by omega) (by omega) (by omega) (by omega),
      hpick (-1) (-1) (by omega) (by omega) (by omega) (by omega)]
    ring
  have hmax : imgMax (List.replicate ny (List.replicate nx c)) = c := by
    unfold imgMax
    rw [hrow, headD_replicate _ _ _ (by omega)]
    apply foldl_max_const
    intro x hxmem
    rcases List.mem_flatten.mp hxmem with ⟨row, hrmem, hxr⟩
    have := List.eq_of_mem_replicate hrmem
    subst this
    exact List.eq_of_mem_replicate hxr
  unfold auto_vertical_center_work
  rw [hbg, hmax]
  have hone :
      (let w := PyFloat.divQ (c - ((c - c) * (1 / 5) + c)) (c - ((c - c) * (1 / 5) + c))
        if w.ltZero then PyFloat.fin 0 else w) = PyFloat.nan := by
    have h1 : c - ((c - c) * (1 / 5) + c) = 0 := by ring
    rw [h1]
    simp [PyFloat.divQ, PyFloat.ltZero]
  rw [List.map_replicate, List.map_replicate, hone]

/-- Witness for C5's amended theorem at a 4×4 constant image of value 5. -/
theorem auto_vertical_center_zero_range_witness :
    (3 ≤ 4 ∧ 3 ≤ 4) ∧
    auto_vertical_center_work (List.replicate 4 (List.replicate 4 (5 : ℚ))) =
      List.replicate 4 (List.replicate 4 PyFloat.nan) :=
  ⟨⟨by decide, by decide⟩,
    auto_vertical_center_zero_range 4 4 5 (by decide) (by decide)⟩

/-- C6 counterexample: at ny = 2, nx = 4 (an even width), both cutoff
resolutions 1 and radius 1, the Bessel-order map is NOT invariant under
horizontal mirroring: the column coordinates `|j - nx//2|` give
`xs = [2π, π, 0, π]`, whose order row `[4, 2, 0, 2]` reversed is
`[2, 0, 2, 4]`. -/
theorem bessel_n_image_mirror_fails :
    (bessel_n_image jnpPeak1Model 64 2 4 1 1 1).map List.reverse ≠
      bessel_n_image jnpPeak1Model 64 2 4 1 1 1 := by
  with_unfolding_all decide

/-- Helper: a list of the form `map F (range n)` is a palindrome when `F` is
symmetric about the midpoint. -/
theorem map_range_reverse_of_symm {β : Type _} (n : ℕ) (F : ℕ → β)
    (h : ∀ j < n, F (n - 1 - j) = F j) :
    ((List.range n).map F).reverse = (List.range n).map F := by
  apply List.ext_getElem
  · simp
  · intro i h1 h2
    simp only [List.length_map, List.length_range] at h2
    rw [List.getElem_reverse]
    simp only [List.getElem_map, List.getElem_range, List.length_map, List.length_range]
    exact h i h2

/-- C6 (amended): for an odd number of columns the Bessel-order map IS
invariant under horizontal mirroring (for any table parameter, sizes,
resolutions and radius); for even widths the column coordinate
`|j - nx//2|` is not mirror-symmetric and the map generally differs. -/
theorem bessel_n_image_mirror_odd (jz : ℕ → ℚ) (fuel ny nx : ℕ)
    (resx resy radius : ℚ) (h : nx % 2 = 1) :
    (bessel_n_image jz fuel ny nx resx resy radius).map List.reverse =
      bessel_n_image jz fuel ny nx resx resy radius := by
  unfold bessel_n_image
  rw [List.map_replicate]
  congr 1
  rw [List.map_map]
  apply map_range_reverse_of_symm
  intro j hj
  simp only [Function.comp]
  congr 2
  have hmid : nx / 2 * 2 + 1 = nx := by omega
  have hcast : ((nx - 1 - j : ℕ) : ℚ) = (nx : ℚ) - 1 - (j : ℚ) := by
    rw [Nat.cast_sub (by omega : j ≤ nx - 1), Nat.cast_sub (by omega : 1 ≤ nx)]
    norm_num
  rw [hcast]
  have hnx : (nx : ℚ) = 2 * ((nx / 2 : ℕ) : ℚ) + 1 := by
    rw [show (2 : ℚ) * ((nx / 2 : ℕ) : ℚ) + 1 = (((nx / 2 * 2 + 1 : ℕ)) : ℚ) by push_cast; ring,
      hmid]
  rw [hnx]
  rw [show 2 * ((nx / 2 : ℕ) : ℚ) + 1 - 1 - (j : ℚ) - ((nx / 2 : ℕ) : ℚ) =
    -((j : ℚ) - ((nx / 2 : ℕ) : ℚ)) + (2 * ((nx / 2 : ℕ) : ℚ) - (j : ℚ) + (j : ℚ) -
      2 * ((nx / 2 : ℕ) : ℚ)) by ring]
  rw [show (-((j : ℚ) - ((nx / 2 : ℕ) : ℚ)) + (2 * ((nx / 2 : ℕ) : ℚ) - (j : ℚ) + (j : ℚ) -
      2 * ((nx / 2 : ℕ) : ℚ))) = -((j : ℚ) - ((nx / 2 : ℕ) : ℚ)) by ring]
  rw [abs_neg]

/-- Witness for C6's amended theorem at ny = 1, nx = 3 (odd), resolutions 1,
radius 1. -/
theorem bessel_n_image_mirror_odd_witness :
    3 % 2 = 1 ∧
    (bessel_n_image jnpPeak1Model 16 1 3 1 1 1).map List.reverse =
      bessel_n_image jnpPeak1Model 16 1 3 1 1 1 :=
  ⟨by decide, bessel_n_image_mirror_odd jnpPeak1Model 16 1 3 1 1 1 (by decide)⟩

/-- Helper: the executable `Rat.floor` agrees with `Int.floor`. -/
theorem ratFloor_eq_intFloor (q : ℚ) : q.floor = ⌊q⌋ :=
  (Rat.floor_def' q).trans Rat.floor_def.symm

/-- Helper: `pyTrunc` of a nonnegative rational is nonnegative. -/
theorem pyTrunc_nonneg {q : ℚ} (h : 0 ≤ q) : 0 ≤ pyTrunc q := by
  unfold pyTrunc
  rw [if_pos h, ratFloor_eq_intFloor]
  exact Int.floor_nonneg.mpr h

/-- Helper: membership in the integer range `[a, …, b]`. -/
theorem mem_intRange {a b i : ℤ} : i ∈ intRange a b ↔ a ≤ i ∧ i ≤ b := by
  unfold intRange
  simp only [List.mem_map, List.mem_range]
  constructor
  · rintro ⟨k, hk, rfl⟩
    omega
  · rintro ⟨h1, h2⟩
    exact ⟨(i - a).toNat, by omega, by omega⟩

/-- Helper: every kept contribution index is a multiple of csym. -/
theorem llIdx_dvd {twist rise : ℚ} {csym : ℕ} {cutoff_res : ℚ} {m : ℤ} :
    ∀ i ∈ llIdx twist rise csym cutoff_res m, (csym : ℤ) ∣ i := by
  intro i hi
  unfold llIdx at hi
  rw [List.mem_filter] at hi
  exact Int.dvd_of_emod_eq_zero (by simpa using hi.2)

/-- Helper: the positivity of the pitch for nonzero twist and rise. -/
theorem pitch_pos {twist rise : ℚ} (ht : twist ≠ 0) (hr : rise ≠ 0) :
    0 < pitch twist rise := by
  unfold pitch
  exact abs_pos.mpr (div_ne_zero (mul_ne_zero hr (by norm_num)) ht)

/-- Helper: 0 is always among the kept contribution indices of the m = 0
group: the index range always brackets 0 and `0 % csym == 0`. -/
theorem zero_mem_llIdx {twist rise : ℚ} (csym : ℕ) {cutoff_res : ℚ}
    (ht : twist ≠ 0) (hr : rise ≠ 0) (hc : 0 < cutoff_res) :
    (0 : ℤ) ∈ llIdx twist rise csym cutoff_res 0 := by
  have hp : 0 < pitch twist rise := pitch_pos ht hr
  have hds : (0 : ℚ) < 1 / pitch twist rise := by
    exact one_div_pos.mpr hp
  have hsmax : (0 : ℚ) < 1 / cutoff_res := one_div_pos.mpr hc
  unfold llIdx
  dsimp only
  rw [List.mem_filter]
  constructor
  · rw [mem_intRange]
    constructor
    · have h1 : 0 ≤ pyTrunc (|(-(1 / cutoff_res)) - ((0 : ℤ) : ℚ) / rise| /
          (1 / pitch twist rise)) :=
        pyTrunc_nonneg (div_nonneg (abs_nonneg _) (le_of_lt hds))
      omega
    · apply pyTrunc_nonneg
      have h2 : ((0 : ℤ) : ℚ) / rise = 0 := by
        rw [Int.cast_zero, zero_div]
      rw [h2, sub_zero]
      exact le_of_lt (div_pos hsmax hds)
  · simp

/-- C1 counterexample: at twist = 360°, rise = 1 Å, csym = 1, radius = 1 Å,
tilt = 0, cutoff 0.5 Å (all valid), the m = 0 group of
`compute_layer_line_positions` contains the nonzero vertical coordinates
±1 and ±2 (the group holds one entry per kept Bessel contribution at
`sy = ll_i/pitch`, not only the equatorial one). -/
theorem layer_line_m0_not_all_zero :
    (compute_layer_line_positions (fun _ => 0) 360 1 1 1 (1 / 2)).lookup 0 =
      some (llGroup (fun _ => 0) 360 1 1 1 (1 / 2) 0) ∧
    ¬ ∀ v ∈ (llGroup (fun _ => 0) 360 1 1 1 (1 / 2) 0).2, v = 0 := by
  with_unfolding_all decide

/-- C1 (amended): for valid parameters (twist ≠ 0, rise ≠ 0, csym ≥ 1,
cutoff > 0, tilt = 0), the m = 0 group is the head group of
`compute_layer_line_positions`; its vertical coordinates always contain 0
(the equatorial layer line; its base vertical frequency `sy0 = 0/rise` is 0),
and every one of them is of the form `j/pitch` for a Bessel contribution
index `j` that is a multiple of csym — but not necessarily 0. -/
theorem layer_line_m0_structure (pk : ℤ → ℚ) (twist rise : ℚ) (csym : ℕ)
    (radius cutoff_res : ℚ)
    (ht : twist ≠ 0) (hr : rise ≠ 0) (hc : 0 < cutoff_res) (_hcs : 1 ≤ csym) :
    (compute_layer_line_positions pk twist rise csym radius cutoff_res).lookup 0 =
      some (llGroup pk twist rise csym radius cutoff_res 0) ∧
    (0 : ℚ) ∈ (llGroup pk twist rise csym radius cutoff_res 0).2 ∧
    ∀ v ∈ (llGroup pk twist rise csym radius cutoff_res 0).2,
      ∃ j : ℤ, (csym : ℤ) ∣ j ∧ v = (j : ℚ) / pitch twist rise := by
  refine ⟨?_, ?_, ?_⟩
  · unfold compute_layer_line_positions llOrders
    dsimp only
    rw [List.map_cons]
    rw [List.lookup_cons]
    simp
  · unfold llGroup
    dsimp only
    apply List.mem_append_left
    rw [List.mem_map]
    refine ⟨0, zero_mem_llIdx csym ht hr hc, ?_⟩
    rw [Int.cast_zero, zero_div, zero_mul, add_zero]
  · unfold llGroup
    dsimp only
    intro v hv
    rcases List.mem_append.mp hv with h | h <;>
      rcases List.mem_map.mp h with ⟨i, hi, rfl⟩ <;>
      refine ⟨i, llIdx_dvd i hi, ?_⟩ <;>
      rw [Int.cast_zero, zero_div, zero_add, mul_one_div]

/-- Witness for C1's amended theorem at twist = 360, rise = 1, csym = 1,
radius = 1, cutoff = 1/2. -/
theorem layer_line_m0_structure_witness :
    ((360 : ℚ) ≠ 0 ∧ (1 : ℚ) ≠ 0 ∧ (0 : ℚ) < 1 / 2 ∧ 1 ≤ 1) ∧
    ((compute_layer_line_positions (fun _ => 1) 360 1 1 1 (1 / 2)).lookup 0 =
      some (llGroup (fun _ => 1) 360 1 1 1 (1 / 2) 0) ∧
    (0 : ℚ) ∈ (llGroup (fun _ => 1) 360 1 1 1 (1 / 2) 0).2 ∧
    ∀ v ∈ (llGroup (fun _ => 1) 360 1 1 1 (1 / 2) 0).2,
      ∃ j : ℤ, ((1 : ℕ) : ℤ) ∣ j ∧ v = (j : ℚ) / pitch 360 1) :=
  ⟨⟨by norm_num, by norm_num, by norm_num, le_rfl⟩,
    layer_line_m0_structure (fun _ => 1) 360 1 1 1 (1 / 2)
      (by norm_num) (by norm_num) (by norm_num) le_rfl⟩

/-- C7: every coordinate of every meridional group of
`compute_layer_line_positions` arises from a Bessel contribution index that
is an integer multiple of csym: each vertical coordinate is
`m/rise + j/pitch` and each horizontal coordinate is `±peak_sx(j)` with
`csym ∣ j`; no other contribution appears (for all parameters and all
external peak tables). -/
theorem layer_line_groups_csym_only (pk : ℤ → ℚ) (twist rise : ℚ) (csym : ℕ)
    (radius cutoff_res : ℚ) :
    ∀ g ∈ compute_layer_line_positions pk twist rise csym radius cutoff_res,
      (∀ v ∈ g.2.2, ∃ j : ℤ, (csym : ℤ) ∣ j ∧
          v = (g.1 : ℚ) / rise + (j : ℚ) / pitch twist rise) ∧
      (∀ u ∈ g.2.1, ∃ j : ℤ, (csym : ℤ) ∣ j ∧
          (u = peak_sx1 pk radius j ∨ u = -peak_sx1 pk radius j)) := by
  intro g hg
  unfold compute_layer_line_positions at hg
  rcases List.mem_map.mp hg with ⟨m, hm, rfl⟩
  unfold llGroup
  dsimp only
  constructor
  · intro v hv
    rcases List.mem_append.mp hv with h | h <;>
      rcases List.mem_map.mp h with ⟨i, hi, rfl⟩ <;>
      exact ⟨i, llIdx_dvd i hi, by rw [mul_one_div]⟩
  · intro u hu
    rcases List.mem_append.mp hu with h | h
    · rcases List.mem_map.mp h with ⟨i, hi, rfl⟩
      exact ⟨i, llIdx_dvd i hi, Or.inl rfl⟩
    · rcases List.mem_map.mp h with ⟨u0, hu0, rfl⟩
      rcases List.mem_map.mp hu0 with ⟨i, hi, rfl⟩
      exact ⟨i, llIdx_dvd i hi, Or.inr rfl⟩

/-- Witness for C7 at twist = 360, rise = 1, csym = 2, radius = 1,
cutoff = 1, evaluated at the m = 0 group (the head of the association list). -/
theorem layer_line_groups_csym_only_witness :
    (((0 : ℤ), llGroup (fun _ => 0) 360 1 2 1 1 0) ∈
      compute_layer_line_positions (fun _ => 0) 360 1 2 1 1) ∧
    ((∀ v ∈ ((0 : ℤ), llGroup (fun _ => 0) 360 1 2 1 1 0).2.2, ∃ j : ℤ,
        ((2 : ℕ) : ℤ) ∣ j ∧
        v = ((((0 : ℤ), llGroup (fun _ => 0) 360 1 2 1 1 0).1 : ℤ) : ℚ) / 1 +
          (j : ℚ) / pitch 360 1) ∧
     (∀ u ∈ ((0 : ℤ), llGroup (fun _ => 0) 360 1 2 1 1 0).2.1, ∃ j : ℤ,
        ((2 : ℕ) : ℤ) ∣ j ∧
        (u = peak_sx1 (fun _ => 0) 1 j ∨ u = -peak_sx1 (fun _ => 0) 1 j))) :=
  ⟨by with_unfolding_all decide,
    layer_line_groups_csym_only (fun _ => 0) 360 1 2 1 1
      ((0 : ℤ), llGroup (fun _ => 0) 360 1 2 1 1 0) (by with_unfolding_all decide)⟩

/-- Helper: a Gaussian ball of width 0 contributes `exp(-r²/0)`: NaN when the
pixel coincides exactly with the center (`0/0`), and 0 otherwise
(`exp(-inf)`). -/
theorem gauss_zero_sigma (expFn : ℚ → ℚ) (dx dy : ℚ) :
    gaussContribution expFn 0 dx dy =
      if dx * dx + dy * dy = 0 then PyFloat.nan else PyFloat.fin 0 := by
  unfold gaussContribution PyFloat.divQ
  rw [if_pos rfl]
  by_cases h : dx * dx + dy * dy = 0
  · rw [if_pos h]
    have h0 : -(dx * dx + dy * dy) = 0 := by rw [h]; ring
    rw [if_pos h0]
    rfl
  · rw [if_neg h]
    have hne : ¬ (-(dx * dx + dy * dy) = 0) := fun hh => h (neg_eq_zero.mp hh)
    rw [if_neg hne]
    have hpos : 0 < dx * dx + dy * dy :=
      lt_of_le_of_ne (add_nonneg (mul_self_nonneg dx) (mul_self_nonneg dy)) (Ne.symm h)
    have hd : decide (0 < -(dx * dx + dy * dy)) = false := decide_eq_false (by linarith)
    rw [hd]
    rfl

/-- Helper: folding NaN through IEEE addition stays NaN. -/
theorem foldl_add_nan (l : List PyFloat) : l.foldl PyFloat.add PyFloat.nan = PyFloat.nan := by
  induction l with
  | nil => rfl
  | cons x xs ih =>
    have hx : PyFloat.add PyFloat.nan x = PyFloat.nan := by cases x <;> rfl
    rw [List.foldl_cons, hx]
    exact ih

/-- Helper: accumulating a list whose entries are each 0 or NaN onto a finite
value yields NaN exactly when some entry is NaN, and the unchanged finite
value otherwise. -/
theorem foldl_add_zero_or_nan (a : ℚ) (l : List PyFloat)
    (h : ∀ x ∈ l, x = PyFloat.fin 0 ∨ x = PyFloat.nan) :
    l.foldl PyFloat.add (PyFloat.fin a) =
      if PyFloat.nan ∈ l then PyFloat.nan else PyFloat.fin a := by
  induction l generalizing a with
  | nil => simp
  | cons x xs ih =>
    rcases h x (List.mem_cons_self _ _) with hx | hx
    · subst hx
      have hxs := ih a (fun y hy => h y (List.mem_cons_of_mem _ hy))
      rw [List.foldl_cons]
      have hadd : PyFloat.add (PyFloat.fin a) (PyFloat.fin 0) = PyFloat.fin a := by
        simp [PyFloat.add]
      rw [hadd, hxs]
      by_cases hn : PyFloat.nan ∈ xs
      · rw [if_pos hn, if_pos (List.mem_cons_of_mem _ hn)]
      · rw [if_neg hn, if_neg ?_]
        intro hmem
        rcases List.mem_cons.mp hmem with h0 | h0
        · exact PyFloat.noConfusion h0
        · exact hn h0
    · subst hx
      rw [List.foldl_cons]
      have : PyFloat.add (PyFloat.fin a) PyFloat.nan = PyFloat.nan := rfl
      rw [this, foldl_add_nan, if_pos (List.mem_cons_self _ _)]

/-- C4 (amended): with `ball_radius = 0`, every pixel of `simulate_helix`
that does not coincide exactly with a projected subunit center is exactly 0,
while a pixel coinciding with some center is NaN (from `exp(0/0)`); the image
is all-zero iff no pixel coincides with a center. -/
theorem simulate_helix_ball_zero (cosdeg sindeg expFn : ℚ → ℚ) (twist rise : ℚ)
    (csym : ℕ) (radius : ℚ) (ny nx : ℕ) (apix az0 : ℚ) :
    simulate_helix cosdeg sindeg expFn twist rise csym radius 0 ny nx apix az0 =
      (List.range ny).map (fun iy : ℕ =>
        (List.range nx).map (fun ix : ℕ =>
          if ∃ c ∈ helical_unit_positions cosdeg sindeg twist rise csym radius
              ((ny : ℚ) * apix) az0,
              (((ix : ℚ) - ((nx / 2 : ℕ) : ℚ)) * apix - c.2) *
                (((ix : ℚ) - ((nx / 2 : ℕ) : ℚ)) * apix - c.2) +
              (((iy : ℚ) - ((ny / 2 : ℕ) : ℚ)) * apix - c.1) *
                (((iy : ℚ) - ((ny / 2 : ℕ) : ℚ)) * apix - c.1) = 0
          then PyFloat.nan else PyFloat.fin 0)) := by
  unfold simulate_helix simulate_projection
  dsimp only
  apply List.map_congr_left
  intro iy _
  apply List.map_congr_left
  intro ix _
  rw [← List.foldl_map
    (fun c : ℚ × ℚ => gaussContribution expFn (0 * 0)
      (((ix : ℚ) - ((nx / 2 : ℕ) : ℚ)) * apix - c.2)
      (((iy : ℚ) - ((ny / 2 : ℕ) : ℚ)) * apix - c.1)) PyFloat.add]
  set centers := helical_unit_positions cosdeg sindeg twist rise csym radius
    ((ny : ℚ) * apix) az0 with hcenters
  rw [foldl_add_zero_or_nan]
  · have hmem : PyFloat.nan ∈ centers.map
        (fun c : ℚ × ℚ => gaussContribution expFn (0 * 0)
          (((ix : ℚ) - ((nx / 2 : ℕ) : ℚ)) * apix - c.2)
          (((iy : ℚ) - ((ny / 2 : ℕ) : ℚ)) * apix - c.1)) ↔
        ∃ c ∈ centers,
          (((ix : ℚ) - ((nx / 2 : ℕ) : ℚ)) * apix - c.2) *
            (((ix : ℚ) - ((nx / 2 : ℕ) : ℚ)) * apix - c.2) +
          (((iy : ℚ) - ((ny / 2 : ℕ) : ℚ)) * apix - c.1) *
            (((iy : ℚ) - ((ny / 2 : ℕ) : ℚ)) * apix - c.1) = 0 := by
      rw [List.mem_map]
      constructor
      · rintro ⟨c, hc, hgc⟩
        refine ⟨c, hc, ?_⟩
        rw [zero_mul, gauss_zero_sigma] at hgc
        by_contra hne
        rw [if_neg hne] at hgc
        exact PyFloat.noConfusion hgc
      · rintro ⟨c, hc, hzero⟩
        refine ⟨c, hc, ?_⟩
        rw [zero_mul, gauss_zero_sigma, if_pos hzero]
    by_cases hex : ∃ c ∈ centers,
        (((ix : ℚ) - ((nx / 2 : ℕ) : ℚ)) * apix - c.2) *
          (((ix : ℚ) - ((nx / 2 : ℕ) : ℚ)) * apix - c.2) +
        (((iy : ℚ) - ((ny / 2 : ℕ) : ℚ)) * apix - c.1) *
          (((iy : ℚ) - ((ny / 2 : ℕ) : ℚ)) * apix - c.1) = 0
    · rw [if_pos (hmem.mpr hex), if_pos hex]
    · rw [if_neg (fun hm => hex (hmem.mp hm)), if_neg hex]
  · intro x hx
    rcases List.mem_map.mp hx with ⟨c, _, rfl⟩
    rw [zero_mul, gauss_zero_sigma]
    split
    · exact Or.inr rfl
    · exact Or.inl rfl

/-- C4 counterexample: at twist = 360°, rise = 1 Å, csym = 1, radius = 1 Å,
ball_radius = 0, a 2×2 grid with 1 Å pixels and azimuth 0, the pixel at
row 0, column 1 sits exactly on a projected center (every evaluated angle is
90° + 360°·i, where the true cosine is 0 and the true sine is 1, so the
constant oracles used here agree with cos/sin at every point the code
evaluates) — that pixel is NaN (`exp(0/0)`), not 0, so the image is not
all-zero finite. -/
theorem simulate_helix_ball_zero_nan_pixel :
    ¬ (∀ row ∈ simulate_helix (fun _ => 0) (fun _ => 1) (fun q => q)
        360 1 1 1 0 2 2 1 0,
        ∀ v ∈ row, v = PyFloat.fin 0) := by
  with_unfolding_all decide

/-- Helper: a fold of pointwise writes leaves untouched keys at their
starting value. -/
theorem foldl_update_not_mem {α β γ : Type _} [DecidableEq α] (key : γ → α) (val : γ → β)
    (l : List γ) (init : α → β) (a : α) (ha : a ∉ l.map key) :
    l.foldl (fun arr q => Function.update arr (key q) (val q)) init a = init a := by
  induction l generalizing init with
  | nil => rfl
  | cons q rest ih =>
    rw [List.map_cons, List.mem_cons] at ha
    push_neg at ha
    rw [List.foldl_cons, ih _ ha.2]
    exact Function.update_noteq ha.1 _ _

/-- Helper: with duplicate-free keys, a fold of pointwise writes ends with
every written key holding its written value (no overwrites). -/
theorem foldl_update_nodup {α β γ : Type _} [DecidableEq α] (key : γ → α) (val : γ → β)
    (l : List γ) (hnd : (l.map key).Nodup) (init : α → β) :
    ∀ p ∈ l, l.foldl (fun arr q => Function.update arr (key q) (val q)) init (key p) =
      val p := by
  induction l generalizing init with
  | nil =>
    intro p hp
    exact absurd hp (List.not_mem_nil _)
  | cons q rest ih =>
    rw [List.map_cons, List.nodup_cons] at hnd
    intro p hp
    rw [List.foldl_cons]
    rcases List.mem_cons.mp hp with rfl | hp2
    · rw [foldl_update_not_mem _ _ _ _ _ hnd.1]
      exact Function.update_same _ _ _
    · exact ih hnd.2 _ p hp2

/-- Helper: Euclidean uniqueness of the decomposition `i*c + s` with
`0 ≤ s < c`. -/
theorem euclid_pair {c : ℤ} (hc : 0 < c) {i1 i2 s1 s2 : ℤ}
    (hs1 : 0 ≤ s1) (hs1c : s1 < c) (hs2 : 0 ≤ s2) (hs2c : s2 < c)
    (h : i1 * c + s1 = i2 * c + s2) : i1 = i2 ∧ s1 = s2 := by
  have h1 : (i1 * c + s1) % c = s1 := by
    rw [add_comm, Int.add_mul_emod_self]
    exact Int.emod_eq_of_lt hs1 hs1c
  have h2 : (i2 * c + s2) % c = s2 := by
    rw [add_comm, Int.add_mul_emod_self]
    exact Int.emod_eq_of_lt hs2 hs2c
  have hs : s1 = s2 := by rw [← h1, h, h2]
  have h3 : i1 * c = i2 * c := by
    rw [hs] at h
    linarith
  exact ⟨mul_right_cancel₀ (ne_of_gt hc) h3, hs⟩

/-- Helper: membership in the loop pairs. -/
theorem mem_huPairs {imax : ℤ} {csym : ℕ} {p : ℤ × ℕ} :
    p ∈ huPairs imax csym ↔ (-imax ≤ p.1 ∧ p.1 ≤ imax ∧ p.2 < csym) := by
  unfold huPairs
  rw [List.mem_flatMap]
  constructor
  · rintro ⟨i, hi, hp⟩
    rcases List.mem_map.mp hp with ⟨si, hsi, rfl⟩
    rw [mem_intRange] at hi
    exact ⟨hi.1, hi.2, List.mem_range.mp hsi⟩
  · rintro ⟨h1, h2, h3⟩
    exact ⟨p.1, mem_intRange.mpr ⟨h1, h2⟩,
      List.mem_map.mpr ⟨p.2, List.mem_range.mpr h3, Prod.mk.eta⟩⟩

/-- Helper: tagging each element of a duplicate-free list with all second
components keeps the pair list duplicate-free. -/
theorem nodup_pairs_flatMap {l : List ℤ} (hl : l.Nodup) (csym : ℕ) :
    (l.flatMap (fun i => (List.range csym).map (fun si => (i, si)))).Nodup := by
  induction l with
  | nil => simp
  | cons a rest ih =>
    rw [List.nodup_cons] at hl
    rw [List.flatMap_cons]
    apply List.Nodup.append
    · exact (List.nodup_range _).map (fun x y hxy => congrArg Prod.snd hxy)
    · exact ih hl.2
    · intro x hx1 hx2
      rcases List.mem_map.mp hx1 with ⟨si, _, rfl⟩
      rcases List.mem_flatMap.mp hx2 with ⟨i, hi, hxi⟩
      rcases List.mem_map.mp hxi with ⟨si2, _, heq⟩
      have : i = a := congrArg Prod.fst heq
      exact hl.1 (this ▸ hi)

/-- Helper: the loop pairs are duplicate-free. -/
theorem huPairs_nodup (imax : ℤ) (csym : ℕ) : (huPairs imax csym).Nodup := by
  unfold huPairs
  apply nodup_pairs_flatMap _ csym
  unfold intRange
  exact (List.nodup_range _).map (fun x y hxy => by omega)

/-- Helper: an in-block (nonnegative axial index) write lands at its raw
index, inside the lower block. -/
theorem huWriteIndex_nonneg_case {imax c i s : ℤ} (hc : 0 < c)
    (hi0 : 0 ≤ i) (hi1 : i ≤ imax) (hs0 : 0 ≤ s) (hs1 : s < c) :
    huWriteIndex ((2 * imax + 1) * c) (i * c + s) = i * c + s ∧
    0 ≤ i * c + s ∧ i * c + s < (imax + 1) * c := by
  have h1 : 0 ≤ i * c := mul_nonneg hi0 hc.le
  have h2 : i * c ≤ imax * c := mul_le_mul_of_nonneg_right hi1 hc.le
  have h3 : (imax + 1) * c = imax * c + c := by ring
  refine ⟨?_, by linarith, by linarith⟩
  unfold huWriteIndex
  rw [if_neg (by linarith)]

/-- Helper: a negative axial index wraps once and lands in the upper block. -/
theorem huWriteIndex_neg_case {imax c i s : ℤ} (hc : 0 < c) (_himax : 0 ≤ imax)
    (hi0 : -imax ≤ i) (hi1 : i < 0) (hs0 : 0 ≤ s) (hs1 : s < c) :
    huWriteIndex ((2 * imax + 1) * c) (i * c + s) = i * c + s + (2 * imax + 1) * c ∧
    (imax + 1) * c ≤ i * c + s + (2 * imax + 1) * c ∧
    i * c + s + (2 * imax + 1) * c < (2 * imax + 1) * c := by
  have h1 : i * c ≤ (-1) * c := mul_le_mul_of_nonneg_right (by omega) hc.le
  have h2 : (-imax) * c ≤ i * c := mul_le_mul_of_nonneg_right hi0 hc.le
  have h3 : i * c + s < 0 := by linarith
  have h4 : (-imax) * c + (2 * imax + 1) * c = (imax + 1) * c := by ring
  refine ⟨?_, by linarith, by linarith⟩
  unfold huWriteIndex
  rw [if_pos h3]

/-- Helper: the write-index list is duplicate-free: no row is written twice. -/
theorem huWrites_nodup {imax : ℤ} {csym : ℕ} (himax : 0 ≤ imax) (hcs : 1 ≤ csym) :
    (huWrites imax csym).Nodup := by
  have hc : (0 : ℤ) < (csym : ℤ) := by exact_mod_cast hcs
  unfold huWrites
  apply List.Nodup.map_on _ (huPairs_nodup imax csym)
  intro p hp q hq heq
  rw [mem_huPairs] at hp hq
  have hps : (0 : ℤ) ≤ (p.2 : ℤ) := Int.natCast_nonneg _
  have hqs : (0 : ℤ) ≤ (q.2 : ℤ) := Int.natCast_nonneg _
  have hpc : (p.2 : ℤ) < (csym : ℤ) := by exact_mod_cast hp.2.2
  have hqc : (q.2 : ℤ) < (csym : ℤ) := by exact_mod_cast hq.2.2
  rcases le_or_lt 0 p.1 with hp1 | hp1 <;> rcases le_or_lt 0 q.1 with hq1 | hq1
  · rw [(huWriteIndex_nonneg_case hc hp1 hp.2.1 hps hpc).1,
      (huWriteIndex_nonneg_case hc hq1 hq.2.1 hqs hqc).1] at heq
    rcases euclid_pair hc hps hpc hqs hqc heq with ⟨he1, he2⟩
    have : p.2 = q.2 := by exact_mod_cast he2
    exact Prod.ext he1 this
  · exfalso
    have hb1 := (huWriteIndex_nonneg_case hc hp1 hp.2.1 hps hpc)
    have hb2 := (huWriteIndex_neg_case hc himax hq.1 hq1 hqs hqc)
    rw [hb1.1, hb2.1] at heq
    have := hb1.2.2
    have := hb2.2.1
    omega
  · exfalso
    have hb1 := (huWriteIndex_neg_case hc himax hp.1 hp1 hps hpc)
    have hb2 := (huWriteIndex_nonneg_case hc hq1 hq.2.1 hqs hqc)
    rw [hb1.1, hb2.1] at heq
    have := hb1.2.1
    have := hb2.2.2
    omega
  · rw [(huWriteIndex_neg_case hc himax hp.1 hp1 hps hpc).1,
      (huWriteIndex_neg_case hc himax hq.1 hq1 hqs hqc).1] at heq
    have heq2 : p.1 * (csym : ℤ) + (p.2 : ℤ) = q.1 * (csym : ℤ) + (q.2 : ℤ) := by omega
    rcases euclid_pair hc hps hpc hqs hqc heq2 with ⟨he1, he2⟩
    have : p.2 = q.2 := by exact_mod_cast he2
    exact Prod.ext he1 this

/-- Helper: the write-index list covers exactly the rows `0 … N-1`. -/
theorem mem_huWrites {imax : ℤ} {csym : ℕ} (himax : 0 ≤ imax) (hcs : 1 ≤ csym)
    (r : ℤ) :
    r ∈ huWrites imax csym ↔ 0 ≤ r ∧ r < (2 * imax + 1) * (csym : ℤ) := by
  have hc : (0 : ℤ) < (csym : ℤ) := by exact_mod_cast hcs
  unfold huWrites
  rw [List.mem_map]
  constructor
  · rintro ⟨p, hp, rfl⟩
    rw [mem_huPairs] at hp
    have hps : (0 : ℤ) ≤ (p.2 : ℤ) := Int.natCast_nonneg _
    have hpc : (p.2 : ℤ) < (csym : ℤ) := by exact_mod_cast hp.2.2
    rcases le_or_lt 0 p.1 with hp1 | hp1
    · have hb := huWriteIndex_nonneg_case hc hp1 hp.2.1 hps hpc
      rw [hb.1]
      have h5 : (imax + 1) * (csym : ℤ) ≤ (2 * imax + 1) * (csym : ℤ) :=
        mul_le_mul_of_nonneg_right (by omega) hc.le
      exact ⟨hb.2.1, by linarith [hb.2.2]⟩
    · have hb := huWriteIndex_neg_case hc himax hp.1 hp1 hps hpc
      rw [hb.1]
      have h5 : 0 ≤ (imax + 1) * (csym : ℤ) := mul_nonneg (by omega) hc.le
      exact ⟨by linarith [hb.2.1], hb.2.2⟩
  · rintro ⟨h0, h1⟩
    have hs0 : 0 ≤ r % (csym : ℤ) := Int.emod_nonneg r (ne_of_gt hc)
    have hs1 : r % (csym : ℤ) < (csym : ℤ) := Int.emod_lt_of_pos r hc
    have hrec : (csym : ℤ) * (r / (csym : ℤ)) + r % (csym : ℤ) = r :=
      Int.ediv_add_emod r (csym : ℤ)
    have hsnat : ((r % (csym : ℤ)).toNat : ℤ) = r % (csym : ℤ) :=
      Int.toNat_of_nonneg hs0
    have hsc : (r % (csym : ℤ)).toNat < csym := by omega
    rcases lt_or_ge r ((imax + 1) * (csym : ℤ)) with hcase | hcase
    · have hdiv0 : 0 ≤ r / (csym : ℤ) := Int.ediv_nonneg h0 hc.le
      have hdiv1 : r / (csym : ℤ) ≤ imax := by
        have hlt : r / (csym : ℤ) < imax + 1 := by
          rw [Int.ediv_lt_iff_lt_mul hc]
          calc r < (imax + 1) * (csym : ℤ) := hcase
            _ = (imax + 1) * (csym : ℤ) := rfl
        omega
      have hb := huWriteIndex_nonneg_case hc hdiv0 hdiv1 hs0 hs1
      refine ⟨(r / (csym : ℤ), (r % (csym : ℤ)).toNat), ?_, ?_⟩
      · rw [mem_huPairs]
        exact ⟨by omega, hdiv1, hsc⟩
      · rw [hsnat, hb.1]
        have hcm : r / (csym : ℤ) * (csym : ℤ) = (csym : ℤ) * (r / (csym : ℤ)) :=
          mul_comm _ _
        linarith [hrec]
    · have hlow : imax + 1 ≤ r / (csym : ℤ) := by
        rw [Int.le_ediv_iff_mul_le hc]
        exact hcase
      have hhigh : r / (csym : ℤ) < 2 * imax + 1 := by
        rw [Int.ediv_lt_iff_lt_mul hc]
        exact h1
      have hb := huWriteIndex_neg_case hc himax
        (show -imax ≤ r / (csym : ℤ) - (2 * imax + 1) by omega)
        (show r / (csym : ℤ) - (2 * imax + 1) < 0 by omega) hs0 hs1
      refine ⟨(r / (csym : ℤ) - (2 * imax + 1), (r % (csym : ℤ)).toNat), ?_, ?_⟩
      · rw [mem_huPairs]
        exact ⟨by omega, by omega, hsc⟩
      · rw [hsnat, hb.1]
        have hexp : (r / (csym : ℤ) - (2 * imax + 1)) * (csym : ℤ) =
            (csym : ℤ) * (r / (csym : ℤ)) - (2 * imax + 1) * (csym : ℤ) := by ring
        linarith [hrec]

/-- C10: the `centers` fill loop of `helical_unit_positions` writes exactly
the `(2·⌊height/rise⌋+1)·csym` rows, each exactly once: the write-index list
has the full length, is duplicate-free, and covers exactly `0 … N-1`
(negative axial indices wrap once into the upper block), and the final array
holds, at each written row, the subunit coordinates
`(cos(angle)·radius, sin(angle)·radius, rise·i)` with
`angle = twist·i + si·360/csym + az0 + 90`. -/
theorem helical_unit_centers_write_once (cosdeg sindeg : ℚ → ℚ) (twist rise : ℚ)
    (csym : ℕ) (radius height az0 : ℚ)
    (hr : 0 < rise) (hh : 0 ≤ height) (hcs : 1 ≤ csym) :
    ((huPairs (pyTrunc (height / rise)) csym).length : ℤ) =
        (2 * pyTrunc (height / rise) + 1) * (csym : ℤ) ∧
    (huWrites (pyTrunc (height / rise)) csym).Nodup ∧
    (∀ r : ℤ, r ∈ huWrites (pyTrunc (height / rise)) csym ↔
        0 ≤ r ∧ r < (2 * pyTrunc (height / rise) + 1) * (csym : ℤ)) ∧
    (∀ p ∈ huPairs (pyTrunc (height / rise)) csym, p.1 < 0 →
        huWriteIndex ((2 * pyTrunc (height / rise) + 1) * (csym : ℤ))
            (p.1 * (csym : ℤ) + (p.2 : ℤ)) =
          p.1 * (csym : ℤ) + (p.2 : ℤ) +
            (2 * pyTrunc (height / rise) + 1) * (csym : ℤ) ∧
        (pyTrunc (height / rise) + 1) * (csym : ℤ) ≤
          huWriteIndex ((2 * pyTrunc (height / rise) + 1) * (csym : ℤ))
            (p.1 * (csym : ℤ) + (p.2 : ℤ))) ∧
    (∀ p ∈ huPairs (pyTrunc (height / rise)) csym,
        helical_unit_centers cosdeg sindeg twist rise csym radius height az0
          (huWriteIndex ((2 * pyTrunc (height / rise) + 1) * (csym : ℤ))
            (p.1 * (csym : ℤ) + (p.2 : ℤ))) =
        (cosdeg (huAngle twist csym az0 p.1 p.2) * radius,
         sindeg (huAngle twist csym az0 p.1 p.2) * radius, rise * (p.1 : ℚ))) := by
  have himax : 0 ≤ pyTrunc (height / rise) :=
    pyTrunc_nonneg (div_nonneg hh hr.le)
  have hc : (0 : ℤ) < (csym : ℤ) := by exact_mod_cast hcs
  refine ⟨?_, huWrites_nodup himax hcs, mem_huWrites himax hcs, ?_, ?_⟩
  · unfold huPairs intRange
    rw [List.length_flatMap, List.map_map]
    rw [show ((List.length ∘ fun i : ℤ => (List.range csym).map (fun si => (i, si))) ∘
        fun k : ℕ => -pyTrunc (height / rise) + (k : ℤ)) = (fun _ : ℕ => csym) from
      funext (fun k => by simp)]
    rw [List.map_const', List.length_range, List.sum_replicate, smul_eq_mul]
    have htn : ((pyTrunc (height / rise) + 1 - -pyTrunc (height / rise)).toNat : ℤ) =
        2 * pyTrunc (height / rise) + 1 := by omega
    rw [Nat.cast_mul, htn]
  · intro p hp hneg
    rw [mem_huPairs] at hp
    have hps : (0 : ℤ) ≤ (p.2 : ℤ) := Int.natCast_nonneg _
    have hpc : (p.2 : ℤ) < (csym : ℤ) := by exact_mod_cast hp.2.2
    have hb := huWriteIndex_neg_case hc himax hp.1 hneg hps hpc
    exact ⟨hb.1, by rw [hb.1]; exact hb.2.1⟩
  · intro p hp
    unfold helical_unit_centers
    exact foldl_update_nodup
      (fun q : ℤ × ℕ => huWriteIndex ((2 * pyTrunc (height / rise) + 1) * (csym : ℤ))
        (q.1 * (csym : ℤ) + (q.2 : ℤ)))
      (fun q : ℤ × ℕ =>
        (cosdeg (huAngle twist csym az0 q.1 q.2) * radius,
         sindeg (huAngle twist csym az0 q.1 q.2) * radius, rise * (q.1 : ℚ)))
      (huPairs (pyTrunc (height / rise)) csym)
      (huWrites_nodup himax hcs) _ p hp

/-- Witness for C10 at twist = 30°, rise = 1 Å, csym = 2, height = 2 Å. -/
theorem helical_unit_centers_write_once_witness :
    ((0 : ℚ) < 1 ∧ (0 : ℚ) ≤ 2 ∧ 1 ≤ 2) ∧
    (((huPairs (pyTrunc ((2 : ℚ) / 1)) 2).length : ℤ) =
        (2 * pyTrunc ((2 : ℚ) / 1) + 1) * ((2 : ℕ) : ℤ) ∧
    (huWrites (pyTrunc ((2 : ℚ) / 1)) 2).Nodup ∧
    (∀ r : ℤ, r ∈ huWrites (pyTrunc ((2 : ℚ) / 1)) 2 ↔
        0 ≤ r ∧ r < (2 * pyTrunc ((2 : ℚ) / 1) + 1) * ((2 : ℕ) : ℤ)) ∧
    (∀ p ∈ huPairs (pyTrunc ((2 : ℚ) / 1)) 2, p.1 < 0 →
        huWriteIndex ((2 * pyTrunc ((2 : ℚ) / 1) + 1) * ((2 : ℕ) : ℤ))
            (p.1 * ((2 : ℕ) : ℤ) + (p.2 : ℤ)) =
          p.1 * ((2 : ℕ) : ℤ) + (p.2 : ℤ) +
            (2 * pyTrunc ((2 : ℚ) / 1) + 1) * ((2 : ℕ) : ℤ) ∧
        (pyTrunc ((2 : ℚ) / 1) + 1) * ((2 : ℕ) : ℤ) ≤
          huWriteIndex ((2 * pyTrunc ((2 : ℚ) / 1) + 1) * ((2 : ℕ) : ℤ))
            (p.1 * ((2 : ℕ) : ℤ) + (p.2 : ℤ))) ∧
    (∀ p ∈ huPairs (pyTrunc ((2 : ℚ) / 1)) 2,
        helical_unit_centers (fun _ => 0) (fun _ => 1) 30 1 2 1 2 0
          (huWriteIndex ((2 * pyTrunc ((2 : ℚ) / 1) + 1) * ((2 : ℕ) : ℤ))
            (p.1 * ((2 : ℕ) : ℤ) + (p.2 : ℤ))) =
        ((fun _ : ℚ => (0 : ℚ)) (huAngle 30 2 0 p.1 p.2) * 1,
         (fun _ : ℚ => (1 : ℚ)) (huAngle 30 2 0 p.1 p.2) * 1, 1 * (p.1 : ℚ)))) :=
  ⟨⟨by norm_num, by norm_num, by norm_num⟩,
    helical_unit_centers_write_once (fun _ => 0) (fun _ => 1) 30 1 2 1 2 0
      (by norm_num) (by norm_num) (by norm_num)⟩

/-- Helper: the `for v in all` scan of `distinct_sampling` either leaves the
state unchanged (nothing beats the running maximum) or returns the first
candidate attaining a new overall maximal distance. -/
theorem pickMaxAux_cases (ref : ℕ) :
    ∀ (cands : List ℕ) (e : ℕ) (m : Option ℕ),
      (pickMaxAux ref e m cands = (e, m) ∧ ∀ w ∈ cands, Nat.dist w ref ≤ e) ∨
      (∃ pre v post, cands = pre ++ v :: post ∧
        pickMaxAux ref e m cands = (Nat.dist v ref, some v) ∧
        e < Nat.dist v ref ∧
        (∀ w ∈ pre, Nat.dist w ref < Nat.dist v ref) ∧
        (∀ w ∈ post, Nat.dist w ref ≤ Nat.dist v ref)) := by
  intro cands
  induction cands with
  | nil =>
    intro e m
    left
    exact ⟨rfl, by simp⟩
  | cons c rest ih =>
    intro e m
    by_cases hd : e < Nat.dist c ref
    · have hstep : pickMaxAux ref e m (c :: rest) =
          pickMaxAux ref (Nat.dist c ref) (some c) rest := by
        simp only [pickMaxAux, if_pos hd]
      rcases ih (Nat.dist c ref) (some c) with ⟨heq, hall⟩ |
        ⟨pre, v, post, hsplit, heq, hlt, hpre, hpost⟩
      · right
        exact ⟨[], c, rest, rfl, by rw [hstep, heq], hd, by simp, hall⟩
      · right
        refine ⟨c :: pre, v, post, by rw [hsplit, List.cons_append], by rw [hstep, heq],
          lt_trans hd hlt, ?_, hpost⟩
        intro w hw
        rcases List.mem_cons.mp hw with rfl | hw2
        · exact hlt
        · exact hpre w hw2
    · have hstep : pickMaxAux ref e m (c :: rest) = pickMaxAux ref e m rest := by
        simp only [pickMaxAux, if_neg hd]
      rcases ih e m with ⟨heq, hall⟩ | ⟨pre, v, post, hsplit, heq, hlt, hpre, hpost⟩
      · left
        refine ⟨by rw [hstep, heq], ?_⟩
        intro w hw
        rcases List.mem_cons.mp hw with rfl | hw2
        · omega
        · exact hall w hw2
      · right
        refine ⟨c :: pre, v, post, by rw [hsplit, List.cons_append], by rw [hstep, heq], hlt, ?_, hpost⟩
        intro w hw
        rcases List.mem_cons.mp hw with rfl | hw2
        · omega
        · exact hpre w hw2

/-- Helper: whenever some candidate lies at positive distance from the
reference, the scan picks a first-found maximal-distance candidate. -/
theorem pickMax_spec (ref : ℕ) (cands : List ℕ)
    (h : ∃ w ∈ cands, 0 < Nat.dist w ref) :
    ∃ v, (pickMax ref cands).2 = some v ∧ isFirstMax ref cands v := by
  rcases pickMaxAux_cases ref cands 0 none with ⟨heq, hall⟩ |
    ⟨pre, v, post, hsplit, heq, _, hpre, hpost⟩
  · exfalso
    rcases h with ⟨w, hw, hwp⟩
    have := hall w hw
    omega
  · refine ⟨v, ?_, ?_⟩
    · unfold pickMax
      rw [heq]
    · refine ⟨pre, post, hsplit, ?_, hpre⟩
      intro w hw
      rw [hsplit] at hw
      rcases List.mem_append.mp hw with hw1 | hw2
      · exact le_of_lt (hpre w hw1)
      · rcases List.mem_cons.mp hw2 with rfl | hw3
        · exact le_rfl
        · exact hpost w hw3

/-- Helper: the `while all:` loop terminates successfully, appends in greedy
order, and its output is a permutation of the chosen prefix plus the
remaining candidates. -/
theorem dsLoop_spec :
    ∀ (fuel : ℕ) (all ret : List ℕ), all.length ≤ fuel → all.Nodup →
      (∀ w ∈ all, w ∉ ret) → ret ≠ [] →
      ∃ out, dsLoop fuel all ret = some out ∧ out.Perm (ret ++ all) ∧
        GreedyRun ret all out ∧ ∃ suffix, out = ret ++ suffix := by
  intro fuel
  induction fuel with
  | zero =>
    intro all ret hlen hnd hdisj hne
    cases all with
    | nil => exact ⟨ret, rfl, by simp, GreedyRun.nil ret, [], by simp⟩
    | cons a as => simp at hlen
  | succ fuel ih =>
    intro all ret hlen hnd hdisj hne
    cases all with
    | nil => exact ⟨ret, rfl, by simp, GreedyRun.nil ret, [], by simp⟩
    | cons a as =>
      have href : refOf ret ∈ ret := by
        have hlt : ret.length - 2 < ret.length := by
          cases ret with
          | nil => exact absurd rfl hne
          | cons r rs =>
            simp only [List.length_cons]
            omega
        unfold refOf
        have hget : ret.getD (ret.length - 2) 0 = ret[ret.length - 2] := by
          rw [List.getD_eq_getElem?_getD, List.getElem?_eq_getElem hlt]
          rfl
        rw [hget]
        exact List.getElem_mem hlt
      have hpos : ∃ w ∈ (a :: as), 0 < Nat.dist w (refOf ret) := by
        refine ⟨a, List.mem_cons_self _ _, ?_⟩
        have hane : a ≠ refOf ret :=
          fun hh => (hdisj a (List.mem_cons_self _ _)) (hh ▸ href)
        rcases Nat.eq_zero_or_pos (Nat.dist a (refOf ret)) with h0 | h0
        · exact absurd (Nat.eq_of_dist_eq_zero h0) hane
        · exact h0
      rcases pickMax_spec (refOf ret) (a :: as) hpos with ⟨v, hv, hfm⟩
      have hvmem : v ∈ a :: as := by
        rcases hfm with ⟨pre, post, hsplit, _, _⟩
        rw [hsplit]
        exact List.mem_append_right _ (List.mem_cons_self _ _)
      have hstep : dsLoop (fuel + 1) (a :: as) ret =
          dsLoop fuel ((a :: as).erase v) (ret ++ [v]) := by
        show (match (pickMax (refOf ret) (a :: as)).2 with
          | none => none
          | some v => dsLoop fuel ((a :: as).erase v) (ret ++ [v])) =
          dsLoop fuel ((a :: as).erase v) (ret ++ [v])
        rw [hv]
      have hlen2 : ((a :: as).erase v).length ≤ fuel := by
        rw [List.length_erase_of_mem hvmem]
        simp only [List.length_cons] at hlen ⊢
        omega
      have hnd2 : ((a :: as).erase v).Nodup := hnd.erase _
      have hdisj2 : ∀ w ∈ (a :: as).erase v, w ∉ ret ++ [v] := by
        intro w hw
        have hwmem : w ∈ a :: as := List.mem_of_mem_erase hw
        have hwne : w ≠ v := ((List.Nodup.mem_erase_iff hnd).mp hw).1
        intro hcon
        rcases List.mem_append.mp hcon with hin | hin
        · exact (hdisj w hwmem) hin
        · exact hwne (by simpa using hin)
      rcases ih ((a :: as).erase v) (ret ++ [v]) hlen2 hnd2 hdisj2 (by simp) with
        ⟨out, hout, hperm, hrun, suffix, hsuffix⟩
      refine ⟨out, by rw [hstep]; exact hout, ?_,
        GreedyRun.cons ret (a :: as) v out hfm hrun, ?_⟩
      · apply hperm.trans
        have h1 : (ret ++ [v]) ++ (a :: as).erase v = ret ++ (v :: (a :: as).erase v) := by
          simp [List.append_assoc]
        rw [h1]
        exact List.Perm.append_left ret (List.perm_cons_erase hvmem).symm
      · exact ⟨[v] ++ suffix, by rw [hsuffix, List.append_assoc]⟩

/-- C9: for every n ≥ 1, `distinct_sampling n` succeeds and returns a
permutation of `{0, …, n-1}` whose first element is 0 (`[0]` for n = 1), and
the sequence is produced by the greedy rule: each subsequent element is the
first-found candidate maximising the distance to the second-most-recently
chosen element. -/
theorem distinct_sampling_spec (n : ℕ) (h : 1 ≤ n) :
    ∃ l, distinct_sampling n = some l ∧ l.head? = some 0 ∧ l.Perm (List.range n) ∧
      GreedyRun [0] (List.range' 1 (n - 1)) l ∧ (n = 1 → l = [0]) := by
  by_cases h1 : n = 1
  · subst h1
    refine ⟨[0], by decide, rfl, by decide, GreedyRun.nil [0], fun _ => rfl⟩
  · have h0 : n ≠ 0 := by omega
    unfold distinct_sampling
    rw [if_neg h0, if_neg h1]
    have hlen : (List.range' 1 (n - 1)).length ≤ n - 1 := by
      rw [List.length_range']
    have hnd : (List.range' 1 (n - 1)).Nodup := List.nodup_range' 1 (n - 1)
    have hdisj : ∀ w ∈ List.range' 1 (n - 1), w ∉ [0] := by
      intro w hw
      rw [List.mem_range'_1] at hw
      simp only [List.mem_singleton]
      omega
    rcases dsLoop_spec (n - 1) (List.range' 1 (n - 1)) [0] hlen hnd hdisj (by simp) with
      ⟨out, hout, hperm, hrun, suffix, hsuffix⟩
    refine ⟨out, hout, ?_, ?_, hrun, fun hh => absurd hh h1⟩
    · rw [hsuffix]
      rfl
    · apply hperm.trans
      have hr : [0] ++ List.range' 1 (n - 1) = List.range n := by
        obtain ⟨m, rfl⟩ : ∃ m, n = m + 1 := ⟨n - 1, by omega⟩
        rw [List.range_eq_range', List.range'_succ]
        simp
      rw [hr]

/-- Witness for C9 at n = 4: `distinct_sampling 4 = [0, 3, 1, 2]`. -/
theorem distinct_sampling_spec_witness :
    1 ≤ 4 ∧
    ∃ l, distinct_sampling 4 = some l ∧ l.head? = some 0 ∧ l.Perm (List.range 4) ∧
      GreedyRun [0] (List.range' 1 (4 - 1)) l ∧ (4 = 1 → l = [0]) :=
  ⟨by decide, distinct_sampling_spec 4 (by decide)⟩

end Hill
